import Mathlib

/-!
Shallow embedding of `internal/locate/statistics.go`: a lock-free,
time-windowed latency statistics tracker.  Machine `uint64` values are
modelled as `Nat` with explicit reduction modulo `2 ^ 64` exactly where the
Go operations wrap (`<<`, `+`); `int64`/`int` seconds are modelled as `Int`,
and Go's truncating `%` on `int` is `Int.tmod`.  An out-of-range array index
(a Go runtime panic) is modelled by `Option`: `none` means the operation
panics.  Single-threaded executions of `bucket.observe` are a pure state
transformer; the concurrent semantics of `bucket.observe` is given
separately as a small-step interleaving machine further below.
-/

/-- number of buckets stored in the stats (`bucketsCount`). -/
abbrev bucketsCount : Nat := 10

/-- `counterBytes`: the count field occupies the low 3 bits. -/
abbrev counterBytes : Nat := 3

/-- `counterMusk = (1 << counterBytes) - 1`. -/
abbrev counterMusk : Nat := (1 <<< counterBytes) - 1

/-- `numOfLastStats`: the snapshot window. -/
abbrev numOfLastStats : Nat := 5

/-- `SingleStat`: one bucket's snapshot (`Count`, `Sum`, both `uint64`). -/
structure SingleStat where
  Count : Nat
  Sum : Nat
deriving DecidableEq, Repr

/-- `SingleStat.Avg`: `s.Sum / s.Count` (Go integer division; dividing by
zero is a runtime panic, modelled as `none`). -/
def SingleStat.Avg (s : SingleStat) : Option Nat :=
  if s.Count = 0 then none else some (s.Sum / s.Count)

/-- `type Stats []SingleStat`. -/
abbrev Stats := List SingleStat

/-- `Stats.TotalCount`: `count := uint64(0); for _, st := range s { count += st.Count }`,
each `+=` wrapping in `uint64`. -/
def Stats.TotalCount (s : Stats) : Nat :=
  s.foldl (fun count st => (count + st.Count) % 2 ^ 64) 0

/-- `bucket`: `countAndTotal atomic.Uint64; ts atomic.Int64`. -/
structure bucket where
  countAndTotal : Nat
  ts : Int
deriving DecidableEq, Repr

/-- `composedValue := (ms << counterBytes) | 1` (the shift wraps in `uint64`). -/
def composedValue (ms : Nat) : Nat :=
  ((ms <<< counterBytes) % 2 ^ 64) ||| 1

/-- `bucket.observe` in a single-threaded execution: the `CAS` always
succeeds when `oldTs != ts`, so the stats are cleared and the timestamp
stored; then the packed delta is added (wrapping in `uint64`). -/
def bucket.observe (b : bucket) (ts : Int) (ms : Nat) : bucket :=
  let b' := if b.ts ≠ ts then { countAndTotal := 0, ts := ts } else b
  { b' with countAndTotal := (b'.countAndTotal + composedValue ms) % 2 ^ 64 }

/-- `bucket.load`: unpack `countAndTotal` by mask and shift. -/
def bucket.load (b : bucket) : SingleStat :=
  { Count := b.countAndTotal &&& counterMusk
    Sum := b.countAndTotal >>> counterBytes }

/-- The Go zero value of `bucket`. -/
def freshBucket : bucket := { countAndTotal := 0, ts := 0 }

/-- `latencyStats`: `buckets [bucketsCount]bucket`. -/
structure latencyStats where
  buckets : Fin bucketsCount → bucket

/-- The Go zero value of `latencyStats`. -/
def latencyStats.init : latencyStats := ⟨fun _ => freshBucket⟩

/-- Go array indexing `buckets[i]` with an `int` index: panic (`none`)
unless `0 ≤ i < bucketsCount`. -/
def goIndex (i : Int) : Option (Fin bucketsCount) :=
  if h : 0 ≤ i ∧ i < (bucketsCount : Int) then some ⟨i.toNat, by omega⟩ else none

/-- `latencyStats.observe`: `ts := now.Unix(); idx := int(ts) % bucketsCount;
s.buckets[idx].observe(ts, val)` (the time is modelled by its Unix second). -/
def latencyStats.observe (s : latencyStats) (now : Int) (val : Nat) : Option latencyStats :=
  let ts := now
  (goIndex (ts.tmod (bucketsCount : Int))).map fun idx =>
    ⟨Function.update s.buckets idx ((s.buckets idx).observe ts val)⟩

/-- `latencyStats.getLatestStats`: read the 5 buckets
`buckets[(idx + bucketsCount - i) % bucketsCount]` for `i = 0..4`. -/
def latencyStats.getLatestStats (s : latencyStats) (ts : Int) : Option Stats :=
  let idx := ts.tmod (bucketsCount : Int)
  (List.range numOfLastStats).mapM fun (i : Nat) =>
    (goIndex ((idx + (bucketsCount : Int) - (i : Int)).tmod (bucketsCount : Int))).map
      fun j => (s.buckets j).load

/-- Iterated single-threaded `bucket.observe` over a list of samples. -/
def bucket.observeList (b : bucket) (t : Int) (vs : List Nat) : bucket :=
  vs.foldl (fun b v => b.observe t v) b

/-- Iterated single-threaded `latencyStats.observe` over a list of samples,
propagating a panic. -/
def latencyStats.observeAll (s : latencyStats) (t : Int) (vs : List Nat) :
    Option latencyStats :=
  vs.foldlM (fun acc v => acc.observe t v) s

/-! ### Arithmetic facts about the packed word -/

/-- The packed delta is `8 * (ms mod 2^61) + 1`: the low `counterBytes` bits
carry exactly `1` and the rest carries the (truncated) sample value. -/
lemma composedValue_eq (ms : Nat) : composedValue ms = 8 * (ms % 2 ^ 61) + 1 := by
  have h1 : (ms <<< counterBytes) % 2 ^ 64 = 2 ^ 3 * (ms % 2 ^ 61) := by
    rw [Nat.shiftLeft_eq]
    show ms * 2 ^ 3 % 2 ^ 64 = 2 ^ 3 * (ms % 2 ^ 61)
    have h64 : (2 : Nat) ^ 64 = 2 ^ 61 * 2 ^ 3 := by norm_num
    rw [h64, Nat.mul_mod_mul_right, Nat.mul_comm]
  have h2 : 2 ^ 3 * (ms % 2 ^ 61) ||| 1 = 2 ^ 3 * (ms % 2 ^ 61) + 1 :=
    (Nat.mul_add_lt_is_or (by norm_num) _).symm
  unfold composedValue
  rw [h1, h2]
  ring

/-- For a sample below `2 ^ 61` the packed delta is exact. -/
lemma composedValue_eq_of_lt {ms : Nat} (h : ms < 2 ^ 61) :
    composedValue ms = 8 * ms + 1 := by
  rw [composedValue_eq, Nat.mod_eq_of_lt h]

/-- Unpacking: mask is reduction mod `8`, shift is division by `8`. -/
lemma bucket.load_eq (b : bucket) :
    b.load = ⟨b.countAndTotal % 8, b.countAndTotal / 8⟩ := by
  have hand := Nat.and_pow_two_sub_one_eq_mod b.countAndTotal 3
  have hshift := Nat.shiftRight_eq_div_pow b.countAndTotal 3
  norm_num at hand hshift
  unfold bucket.load
  rw [show counterMusk = 7 from rfl, show counterBytes = 3 from rfl, hand, hshift]

/-- One `observe` always leaves the bucket timestamped `ts`; the packed word
starts from the old one iff the stored timestamp already matched. -/
lemma bucket.observe_eq (b : bucket) (ts : Int) (ms : Nat) :
    b.observe ts ms =
      ⟨((if b.ts = ts then b.countAndTotal else 0) + composedValue ms) % 2 ^ 64, ts⟩ := by
  unfold bucket.observe
  by_cases h : b.ts = ts <;> simp [h]

/-- Exact accumulation: observing a list of samples that all fit, into a
bucket already timestamped `t`, adds `8 * sum + length` to the packed word. -/
lemma bucket.observeList_eq (t : Int) (vs : List Nat) :
    ∀ b : bucket, b.ts = t →
      b.countAndTotal + 8 * vs.sum + vs.length < 2 ^ 64 →
      (∀ v ∈ vs, v < 2 ^ 61) →
      bucket.observeList b t vs = ⟨b.countAndTotal + 8 * vs.sum + vs.length, t⟩ := by
  induction vs with
  | nil =>
      intro b hb _ _
      cases b
      simp_all [bucket.observeList]
  | cons v vs ih =>
      intro b hb hlt hv
      have hv' : v < 2 ^ 61 := hv v (by simp)
      have hsum : (v :: vs).sum = v + vs.sum := by simp
      have hlen : (v :: vs).length = vs.length + 1 := by simp
      have hobs : b.observe t v = ⟨b.countAndTotal + (8 * v + 1), t⟩ := by
        rw [bucket.observe_eq, if_pos hb, composedValue_eq_of_lt hv',
          Nat.mod_eq_of_lt (by rw [hsum, hlen] at hlt; omega)]
      have hstep : bucket.observeList b t (v :: vs) =
          bucket.observeList (b.observe t v) t vs := rfl
      rw [hstep, hobs,
        ih ⟨b.countAndTotal + (8 * v + 1), t⟩ rfl
          (by show b.countAndTotal + (8 * v + 1) + 8 * vs.sum + vs.length < 2 ^ 64
              rw [hsum, hlen] at hlt; omega)
          (fun w hw => hv w (by simp [hw]))]
      rw [hsum, hlen]
      congr 1
      dsimp only
      omega

/-- Observing any sample into a fresh bucket yields a bucket timestamped `t`
holding exactly that one (truncated) sample. -/
lemma freshBucket_observe (t : Int) (v : Nat) :
    freshBucket.observe t v = ⟨composedValue v % 2 ^ 64, t⟩ := by
  rw [bucket.observe_eq]
  simp [freshBucket]

/-! ### Ring indexing for nonnegative seconds -/

/-- Go `%` agrees with Nat `%` on nonnegative operands. -/
lemma tmod_ofNat (n m : Nat) :
    ((n : Int)).tmod ((m : Int)) = ((n % m : Nat) : Int) := rfl

lemma goIndex_ofNat (k : Nat) (hk : k < 10) :
    goIndex ((k : Nat) : Int) = some ⟨k, hk⟩ := by
  have hcond : 0 ≤ ((k : Nat) : Int) ∧ ((k : Nat) : Int) < (bucketsCount : Int) := by
    refine ⟨by omega, ?_⟩
    show ((k : Nat) : Int) < ((10 : Nat) : Int)
    omega
  unfold goIndex
  rw [dif_pos hcond]
  simp

/-- The ring index read for entry `i` of the snapshot, at nonnegative second
`n`, is `(n % 10 + 10 - i) % 10`. -/
lemma tmod_index_eq (n i : Nat) (hi : i ≤ 10) :
    (((n : Int)).tmod (bucketsCount : Int) + (bucketsCount : Int)
        - (i : Int)).tmod (bucketsCount : Int) =
      (((n % 10 + 10 - i) % 10 : Nat) : Int) := by
  have h1 : ((n : Int)).tmod (bucketsCount : Int) = ((n % 10 : Nat) : Int) := rfl
  rw [h1]
  have h2 : ((n % 10 : Nat) : Int) + (bucketsCount : Int) - (i : Int) =
      ((n % 10 + 10 - i : Nat) : Int) := by
    show ((n % 10 : Nat) : Int) + ((10 : Nat) : Int) - (i : Int) = _
    omega
  rw [h2]
  rfl

/-- `getLatestStats` at a nonnegative second `n` succeeds and returns the
five loads of `buckets[(n % 10 + 10 - i) % 10]`, for `i = 0..4` in order. -/
lemma getLatestStats_ofNat (s : latencyStats) (n : Nat) :
    latencyStats.getLatestStats s ((n : Nat) : Int) = some
      [(s.buckets ⟨(n % 10 + 10 - 0) % 10, Nat.mod_lt _ (by decide)⟩).load,
       (s.buckets ⟨(n % 10 + 10 - 1) % 10, Nat.mod_lt _ (by decide)⟩).load,
       (s.buckets ⟨(n % 10 + 10 - 2) % 10, Nat.mod_lt _ (by decide)⟩).load,
       (s.buckets ⟨(n % 10 + 10 - 3) % 10, Nat.mod_lt _ (by decide)⟩).load,
       (s.buckets ⟨(n % 10 + 10 - 4) % 10, Nat.mod_lt _ (by decide)⟩).load] := by
  unfold latencyStats.getLatestStats
  rw [show List.range numOfLastStats = [0, 1, 2, 3, 4] from rfl]
  simp only [List.mapM_cons, List.mapM_nil]
  rw [tmod_index_eq n 0 (by omega), tmod_index_eq n 1 (by omega),
    tmod_index_eq n 2 (by omega), tmod_index_eq n 3 (by omega),
    tmod_index_eq n 4 (by omega)]
  rw [goIndex_ofNat _ (by omega), goIndex_ofNat _ (by omega),
    goIndex_ofNat _ (by omega), goIndex_ofNat _ (by omega),
    goIndex_ofNat _ (by omega)]
  rfl

/-- `observe` at a nonnegative second `n` succeeds and updates exactly the
bucket with index `n % 10`. -/
lemma observe_ofNat (s : latencyStats) (n v : Nat) :
    latencyStats.observe s ((n : Nat) : Int) v = some
      ⟨Function.update s.buckets ⟨n % 10, Nat.mod_lt _ (by decide)⟩
        ((s.buckets ⟨n % 10, Nat.mod_lt _ (by decide)⟩).observe ((n : Nat) : Int) v)⟩ := by
  simp only [latencyStats.observe]
  rw [show ((n : Int)).tmod (bucketsCount : Int) = ((n % 10 : Nat) : Int) from rfl,
    goIndex_ofNat _ (Nat.mod_lt _ (by decide))]
  rfl

/-- Iterated `observe` at a nonnegative second `n` succeeds and replaces the
bucket with index `n % 10` by the iterated bucket-level observation. -/
lemma observeAll_ofNat (n : Nat) (vs : List Nat) :
    ∀ s : latencyStats,
      latencyStats.observeAll s ((n : Nat) : Int) vs = some
        ⟨Function.update s.buckets ⟨n % 10, Nat.mod_lt _ (by decide)⟩
          (bucket.observeList (s.buckets ⟨n % 10, Nat.mod_lt _ (by decide)⟩)
            ((n : Nat) : Int) vs)⟩ := by
  induction vs with
  | nil =>
      intro s
      show some s = _
      rw [show bucket.observeList (s.buckets ⟨n % 10, Nat.mod_lt _ (by decide)⟩)
            ((n : Nat) : Int) [] =
          s.buckets ⟨n % 10, Nat.mod_lt _ (by decide)⟩ from rfl,
        Function.update_eq_self]
  | cons v vs ih =>
      intro s
      show (latencyStats.observe s ((n : Nat) : Int) v).bind
          (fun s' => latencyStats.observeAll s' ((n : Nat) : Int) vs) = _
      rw [observe_ofNat, Option.some_bind, ih]
      congr 1
      rw [latencyStats.mk.injEq]
      dsimp only
      rw [Function.update_same, Function.update_idem]
      rfl

/-- Observing never changes the timestamp away from `t` once it is `t`. -/
lemma observeList_ts (t : Int) (vs : List Nat) :
    ∀ b : bucket, b.ts = t → (bucket.observeList b t vs).ts = t := by
  induction vs with
  | nil => intro b hb; exact hb
  | cons v vs ih =>
      intro b hb
      show (bucket.observeList (b.observe t v) t vs).ts = t
      exact ih _ (by rw [bucket.observe_eq])

/-- A fresh bucket, after a nonempty list of fitting samples at second `t`,
holds exactly the packed word `8 * sum + length` and the timestamp `t`. -/
lemma observeList_fresh_cons (t : Int) (v : Nat) (vs : List Nat)
    (hfit : 8 * (v :: vs).sum + (v :: vs).length < 2 ^ 64)
    (hv : ∀ w ∈ v :: vs, w < 2 ^ 61) :
    bucket.observeList freshBucket t (v :: vs) =
      ⟨8 * (v :: vs).sum + (v :: vs).length, t⟩ := by
  have hsum : (v :: vs).sum = v + vs.sum := by simp
  have hlen : (v :: vs).length = vs.length + 1 := by simp
  have hv' : v < 2 ^ 61 := hv v (by simp)
  show bucket.observeList (freshBucket.observe t v) t vs = _
  rw [freshBucket_observe, composedValue_eq_of_lt hv',
    Nat.mod_eq_of_lt (by rw [hsum, hlen] at hfit; omega)]
  rw [bucket.observeList_eq t vs _ rfl
    (by show 8 * v + 1 + 8 * vs.sum + vs.length < 2 ^ 64
        rw [hsum, hlen] at hfit; omega)
    (fun w hw => hv w (by simp [hw]))]
  congr 1
  dsimp only
  rw [hsum, hlen]
  ring

/-- The timestamp after observing into a fresh bucket is `0` or `t`. -/
lemma observeList_fresh_ts (t : Int) (vs : List Nat) :
    (bucket.observeList freshBucket t vs).ts = 0 ∨
    (bucket.observeList freshBucket t vs).ts = t := by
  cases vs with
  | nil => left; rfl
  | cons v vs =>
      right
      show (bucket.observeList (freshBucket.observe t v) t vs).ts = t
      exact observeList_ts t vs _ (by rw [freshBucket_observe])

/-- In `Nat`, every element of a list is at most its sum. -/
lemma elem_le_sum {vs : List Nat} {v : Nat} (hv : v ∈ vs) : v ≤ vs.sum := by
  induction vs with
  | nil => cases hv
  | cons w vs ih =>
      rcases List.mem_cons.mp hv with h | h
      · subst h; simp
      · have := ih h; simp; omega

/-- The wrapping `TotalCount` fold from any seed. -/
lemma totalCount_foldl (l : List SingleStat) :
    ∀ c : Nat, l.foldl (fun count st => (count + st.Count) % 2 ^ 64) (c % 2 ^ 64) =
      (c + (l.map SingleStat.Count).sum) % 2 ^ 64 := by
  induction l with
  | nil => intro c; simp
  | cons st l ih =>
      intro c
      show l.foldl _ ((c % 2 ^ 64 + st.Count) % 2 ^ 64) = _
      rw [Nat.mod_add_mod, ih (c + st.Count)]
      congr 1
      simp
      ring

/-! ### Claim theorems -/

/-- C1: for every sequence of at most 7 single-threaded `observe(t, v)` calls
at the same (nonnegative) wall-clock second `t` whose sum fits the 61-bit sum
field, `getLatestStats(t)` afterwards has as its newest entry exactly
`Count = N` and `Sum = sum of the v`. -/
theorem c1_same_second_exact_accumulation (t : Int) (vs : List Nat) (ht : 0 ≤ t)
    (hlen : vs.length ≤ 7) (hsum : vs.sum < 2 ^ 61) :
    ∃ s' : latencyStats, latencyStats.observeAll latencyStats.init t vs = some s' ∧
      ∃ res : Stats, s'.getLatestStats t = some res ∧
        res.head? = some ⟨vs.length, vs.sum⟩ := by
  obtain ⟨n, rfl⟩ := Int.eq_ofNat_of_zero_le ht
  refine ⟨_, observeAll_ofNat n vs latencyStats.init, _, getLatestStats_ofNat _ n, ?_⟩
  rw [List.head?_cons, Option.some.injEq]
  rw [show (⟨(n % 10 + 10 - 0) % 10, Nat.mod_lt _ (by decide)⟩ : Fin bucketsCount) =
      ⟨n % 10, Nat.mod_lt _ (by decide)⟩ from Fin.ext (by show (n % 10 + 10 - 0) % 10 = n % 10; omega)]
  dsimp only
  rw [Function.update_same]
  have hv : ∀ w ∈ vs, w < 2 ^ 61 := fun w hw => lt_of_le_of_lt (elem_le_sum hw) hsum
  cases vs with
  | nil =>
      show freshBucket.load = ({ Count := 0, Sum := 0 } : SingleStat)
      decide
  | cons v vs' =>
      rw [show latencyStats.init.buckets ⟨n % 10, Nat.mod_lt _ (by decide)⟩ =
          freshBucket from rfl]
      rw [observeList_fresh_cons _ _ _ (by simp at hsum hlen ⊢; omega) hv, bucket.load_eq]
      have hs : (v :: vs').sum = v + vs'.sum := by simp
      have hl : (v :: vs').length = vs'.length + 1 := by simp
      rw [SingleStat.mk.injEq]
      dsimp only
      rw [hs, hl]
      rw [hl] at hlen
      constructor
      · omega
      · omega

/-- C1 witness: observing 10, 20, 30 at second 5 reads back Count 3, Sum 60. -/
theorem c1_witness :
    0 ≤ (5 : Int) ∧ ([10, 20, 30] : List Nat).length ≤ 7 ∧
      ([10, 20, 30] : List Nat).sum < 2 ^ 61 ∧
      (∃ s' : latencyStats,
        latencyStats.observeAll latencyStats.init 5 [10, 20, 30] = some s' ∧
        ∃ res : Stats, s'.getLatestStats 5 = some res ∧
          res.head? = some ⟨3, 60⟩) :=
  ⟨by decide, by decide, by decide,
    c1_same_second_exact_accumulation 5 [10, 20, 30] (by decide) (by decide) (by decide)⟩

/-- C2 counterexample: at the pre-epoch second -9 the claim fails:
`getLatestStats` computes a negative ring index and panics (`none`) instead
of returning a 5-entry snapshot. -/
theorem c2_counterexample :
    latencyStats.init.getLatestStats (-9) = none := by decide

/-- C2 (amended): for every `now` whose Unix second is nonnegative,
`getLatestStats(now)` returns exactly 5 entries, entry `i` being the load of
`buckets[(idx + 10 - i) % 10]` with `idx = unixSecond(now) % 10`, newest
first. -/
theorem c2_getLatestStats_shape (s : latencyStats) (t : Int) (h : 0 ≤ t) :
    s.getLatestStats t = some
      [(s.buckets ⟨(t.toNat % 10 + 10 - 0) % 10, Nat.mod_lt _ (by decide)⟩).load,
       (s.buckets ⟨(t.toNat % 10 + 10 - 1) % 10, Nat.mod_lt _ (by decide)⟩).load,
       (s.buckets ⟨(t.toNat % 10 + 10 - 2) % 10, Nat.mod_lt _ (by decide)⟩).load,
       (s.buckets ⟨(t.toNat % 10 + 10 - 3) % 10, Nat.mod_lt _ (by decide)⟩).load,
       (s.buckets ⟨(t.toNat % 10 + 10 - 4) % 10, Nat.mod_lt _ (by decide)⟩).load] := by
  obtain ⟨n, rfl⟩ := Int.eq_ofNat_of_zero_le h
  simpa using getLatestStats_ofNat s n

/-- C2 witness: a concrete snapshot at second 12 of the zero state. -/
theorem c2_witness :
    0 ≤ (12 : Int) ∧ latencyStats.init.getLatestStats 12 =
      some [⟨0, 0⟩, ⟨0, 0⟩, ⟨0, 0⟩, ⟨0, 0⟩, ⟨0, 0⟩] := by
  refine ⟨by decide, ?_⟩
  rw [c2_getLatestStats_shape latencyStats.init 12 (by decide)]
  decide

/-- C4: `Avg` is truncating division `Sum / Count` when `Count > 0`, and a
division-by-zero panic exactly when `Count = 0`. -/
theorem c4_avg_division (s : SingleStat) :
    (0 < s.Count → s.Avg = some (s.Sum / s.Count)) ∧
    (s.Count = 0 → s.Avg = none) := by
  unfold SingleStat.Avg
  constructor
  · intro h
    rw [if_neg (by omega)]
  · intro h
    rw [if_pos h]

/-- C4 witness: `Avg ⟨2, 10⟩ = 5`; `Avg ⟨0, 10⟩` panics. -/
theorem c4_witness :
    SingleStat.Avg ⟨2, 10⟩ = some 5 ∧ SingleStat.Avg ⟨0, 10⟩ = none := by
  constructor
  · rw [(c4_avg_division ⟨2, 10⟩).1 (by decide)]
    decide
  · exact (c4_avg_division ⟨0, 10⟩).2 rfl

/-- C5: the 3-bit count field overflows into the sum: exactly 8 same-second
observations on a fresh bucket read back as `Count = 0` and
`Sum = sum + 1`. -/
theorem c5_count_overflow (t : Int) (vs : List Nat) (hlen : vs.length = 8)
    (hsum : vs.sum + 1 < 2 ^ 61) :
    (bucket.observeList freshBucket t vs).load = ⟨0, vs.sum + 1⟩ := by
  have hv : ∀ w ∈ vs, w < 2 ^ 61 :=
    fun w hw => lt_of_le_of_lt (elem_le_sum hw) (by omega)
  cases vs with
  | nil => simp at hlen
  | cons v vs' =>
      rw [observeList_fresh_cons _ _ _ (by rw [hlen]; omega) hv, bucket.load_eq]
      rw [SingleStat.mk.injEq]
      dsimp only
      rw [hlen]
      constructor
      · omega
      · omega

/-- C5 witness: 8 observations of 1..8 read back Count 0, Sum 37. -/
theorem c5_witness :
    ([1, 2, 3, 4, 5, 6, 7, 8] : List Nat).length = 8 ∧
    ([1, 2, 3, 4, 5, 6, 7, 8] : List Nat).sum + 1 < 2 ^ 61 ∧
    (bucket.observeList freshBucket 3 [1, 2, 3, 4, 5, 6, 7, 8]).load = ⟨0, 37⟩ := by
  refine ⟨by decide, by decide, ?_⟩
  rw [c5_count_overflow 3 _ (by decide) (by decide)]
  decide

/-- C7: crossing a second boundary resets the bucket: observing at `s` then
at `s + 1` leaves only the second sample. -/
theorem c7_second_boundary_reset (b : bucket) (s : Int) (v1 v2 : Nat)
    (hv2 : v2 < 2 ^ 61) :
    ((b.observe s v1).observe (s + 1) v2).load = ⟨1, v2⟩ := by
  rw [bucket.observe_eq b, bucket.observe_eq]
  rw [if_neg (by dsimp only; omega)]
  rw [composedValue_eq_of_lt hv2, bucket.load_eq]
  rw [SingleStat.mk.injEq]
  dsimp only
  rw [Nat.mod_eq_of_lt (show 0 + (8 * v2 + 1) < 2 ^ 64 by omega)]
  constructor
  · omega
  · omega

/-- C7 witness. -/
theorem c7_witness :
    (7 : Nat) < 2 ^ 61 ∧
    ((freshBucket.observe 41 3).observe (41 + 1) 7).load = ⟨1, 7⟩ :=
  ⟨by decide, c7_second_boundary_reset freshBucket 41 3 7 (by decide)⟩

/-- C8: `TotalCount` is the plain sum of the `Count` fields, wrapping
modulo `2 ^ 64`. -/
theorem c8_totalcount_wrapping_sum (s : Stats) :
    s.TotalCount = (s.map SingleStat.Count).sum % 2 ^ 64 := by
  have h := totalCount_foldl s 0
  rw [Nat.zero_mod] at h
  rw [Stats.TotalCount, h, Nat.zero_add]

/-- C6 (amended): for a nonnegative second `t`, observing at `t` and at
`t + 10` targets the same ring slot, and after a single-threaded write at
`t + 10` following any writes at `t`, the slot's load shows only the
`t + 10` sample. -/
theorem c6_ring_wraparound (t : Int) (vs : List Nat) (v : Nat) (ht : 0 ≤ t)
    (hv : v < 2 ^ 61) (s' : latencyStats)
    (hs : latencyStats.observeAll latencyStats.init t vs = some s') :
    (t + 10).tmod (bucketsCount : Int) = t.tmod (bucketsCount : Int) ∧
    ∃ s'' : latencyStats, s'.observe (t + 10) v = some s'' ∧
      (s''.buckets ⟨t.toNat % 10, Nat.mod_lt _ (by decide)⟩).load = ⟨1, v⟩ := by
  obtain ⟨n, rfl⟩ := Int.eq_ofNat_of_zero_le ht
  have hcast : ((n : Nat) : Int) + 10 = ((n + 10 : Nat) : Int) := by omega
  constructor
  · rw [hcast, tmod_ofNat, tmod_ofNat]
    have : (n + 10) % 10 = n % 10 := by omega
    rw [this]
  · rw [observeAll_ofNat n vs latencyStats.init, Option.some.injEq] at hs
    subst hs
    rw [hcast, observe_ofNat]
    refine ⟨_, rfl, ?_⟩
    dsimp only
    rw [show ((n : Nat) : Int).toNat = n from rfl]
    rw [Function.update_apply,
      if_pos (Fin.ext (by show n % 10 = (n + 10) % 10; omega)),
      Function.update_apply,
      if_pos (show (⟨(n + 10) % 10, Nat.mod_lt _ (by decide)⟩ : Fin bucketsCount) =
        ⟨n % 10, Nat.mod_lt _ (by decide)⟩ from Fin.ext (by show (n + 10) % 10 = n % 10; omega))]
    rw [show latencyStats.init.buckets ⟨n % 10, Nat.mod_lt _ (by decide)⟩ =
      freshBucket from rfl]
    rw [bucket.observe_eq]
    rw [if_neg (by
      rcases observeList_fresh_ts ((n : Nat) : Int) vs with h0 | hn
      · rw [h0]; omega
      · rw [hn]; omega)]
    rw [composedValue_eq_of_lt hv, bucket.load_eq,
      Nat.mod_eq_of_lt (show 0 + (8 * v + 1) < 2 ^ 64 by omega)]
    rw [SingleStat.mk.injEq]
    dsimp only
    constructor
    · omega
    · omega

/-- C6 witness at `t = 2`, a single wraparound write of value 4. -/
theorem c6_witness :
    ((2 : Int) + 10).tmod (bucketsCount : Int) = (2 : Int).tmod (bucketsCount : Int) ∧
    ∃ s'' : latencyStats, latencyStats.init.observe ((2 : Int) + 10) 4 = some s'' ∧
      (s''.buckets ⟨(2 : Int).toNat % 10, Nat.mod_lt _ (by decide)⟩).load = ⟨1, 4⟩ :=
  c6_ring_wraparound 2 [] 4 (by decide) (by decide) latencyStats.init rfl

/-- Bounds of the truncating remainder by the ring size. -/
lemma tmod_ten_bounds (t : Int) :
    -10 < t.tmod (bucketsCount : Int) ∧ t.tmod (bucketsCount : Int) < 10 := by
  cases t with
  | ofNat n =>
      rw [show (Int.ofNat n).tmod ((bucketsCount : Nat) : Int) =
        ((n % 10 : Nat) : Int) from rfl]
      constructor <;> omega
  | negSucc m =>
      rw [show (Int.negSucc m).tmod ((bucketsCount : Nat) : Int) =
        -(((m + 1) % 10 : Nat) : Int) from rfl]
      constructor <;> omega

/-- Small values are their own truncating remainder (also negative ones). -/
lemma tmod_ten_small {x : Int} (h1 : -10 < x) (h2 : x < 10) :
    x.tmod (bucketsCount : Int) = x := by
  cases x with
  | ofNat n =>
      rw [show (Int.ofNat n).tmod ((bucketsCount : Nat) : Int) =
        ((n % 10 : Nat) : Int) from rfl]
      rw [show Int.ofNat n = ((n : Nat) : Int) from rfl] at h2 ⊢
      omega
  | negSucc m =>
      rw [show (Int.negSucc m).tmod ((bucketsCount : Nat) : Int) =
        -(((m + 1) % 10 : Nat) : Int) from rfl]
      rw [Int.negSucc_eq] at h1 ⊢
      omega

/-- Values in `[10, 20)` lose one ring turn. -/
lemma tmod_ten_mid {x : Int} (h1 : 10 ≤ x) (h2 : x < 20) :
    x.tmod (bucketsCount : Int) = x - 10 := by
  cases x with
  | ofNat n =>
      rw [show (Int.ofNat n).tmod ((bucketsCount : Nat) : Int) =
        ((n % 10 : Nat) : Int) from rfl]
      rw [show Int.ofNat n = ((n : Nat) : Int) from rfl] at h1 h2 ⊢
      omega
  | negSucc m =>
      rw [Int.negSucc_eq] at h1
      omega

lemma goIndex_isSome_iff (i : Int) :
    (goIndex i).isSome = true ↔ 0 ≤ i ∧ i < (bucketsCount : Int) := by
  unfold goIndex
  by_cases h : 0 ≤ i ∧ i < (bucketsCount : Int)
  · rw [dif_pos h]
    simpa using h
  · rw [dif_neg h]
    simpa using h

/-- Someness of a ring access at `x tmod 10` for `x` in the snapshot range. -/
lemma goIndex_tmod_isSome {x : Int} (h1 : -10 < x) (h2 : x < 20) :
    (goIndex (x.tmod (bucketsCount : Int))).isSome = true ↔ 0 ≤ x := by
  by_cases hx : x < 10
  · rw [tmod_ten_small h1 hx, goIndex_isSome_iff,
      show ((bucketsCount : Nat) : Int) = (10 : Int) from rfl]
    omega
  · rw [tmod_ten_mid (by omega) h2, goIndex_isSome_iff,
      show ((bucketsCount : Nat) : Int) = (10 : Int) from rfl]
    omega

/-- `mapM` over `Option` succeeds exactly when every element does. -/
lemma mapM_option_isSome {α β : Type} (f : α → Option β) (l : List α) :
    (l.mapM f).isSome = true ↔ ∀ x ∈ l, (f x).isSome = true := by
  induction l with
  | nil =>
      rw [List.mapM_nil]
      simp
  | cons a l ih =>
      rw [List.mapM_cons]
      cases hfa : f a with
      | none => simp [hfa]
      | some b =>
          cases hml : l.mapM f with
          | none =>
              rw [List.forall_mem_cons, ← ih, hml]
              simp [hfa]
          | some bs =>
              rw [List.forall_mem_cons, ← ih, hml]
              simp [hfa]

lemma observe_isSome_iff (s : latencyStats) (t : Int) (v : Nat) :
    (s.observe t v).isSome = true ↔ 0 ≤ t.tmod (bucketsCount : Int) := by
  simp only [latencyStats.observe, Option.isSome_map']
  rw [goIndex_isSome_iff]
  have hb := tmod_ten_bounds t
  have hbc : ((bucketsCount : Nat) : Int) = 10 := rfl
  omega

lemma getLatestStats_isSome_iff (s : latencyStats) (t : Int) :
    (s.getLatestStats t).isSome = true ↔ -7 < t.tmod (bucketsCount : Int) := by
  have hb := tmod_ten_bounds t
  have hbc : ((bucketsCount : Nat) : Int) = 10 := rfl
  simp only [latencyStats.getLatestStats]
  rw [mapM_option_isSome]
  simp only [Option.isSome_map']
  constructor
  · intro h
    have h4 := h 4 (by decide)
    rw [goIndex_tmod_isSome (by omega) (by omega)] at h4
    omega
  · intro h i hi
    have hi5 : i < 5 := List.mem_range.mp hi
    rw [goIndex_tmod_isSome (by omega) (by omega)]
    omega

/-- C9 counterexample: the pre-epoch second -10 yields index 0 and a safe
`observe`, and at second -1 even `getLatestStats` is safe — so pre-epoch
times do not always give a negative index, and `unixSecond(now) ≥ 0` is not
necessary for safety. -/
theorem c9_counterexample :
    (-10 : Int).tmod (bucketsCount : Int) = 0 ∧
    (latencyStats.init.observe (-10) 5).isSome = true ∧
    (latencyStats.init.getLatestStats (-1)).isSome = true := by decide

/-- C9 (amended): `observe` panics exactly when `unixSecond tmod 10 < 0`
(a pre-epoch second not divisible by 10), `getLatestStats` panics exactly
when `unixSecond tmod 10 ≤ -7`, and `unixSecond ≥ 0` is sufficient for both
to be safe. -/
theorem c9_negative_index_panic (s : latencyStats) (t : Int) (v : Nat) :
    ((s.observe t v).isSome = true ↔ 0 ≤ t.tmod (bucketsCount : Int)) ∧
    ((s.getLatestStats t).isSome = true ↔ -7 < t.tmod (bucketsCount : Int)) ∧
    (0 ≤ t →
      (s.observe t v).isSome = true ∧ (s.getLatestStats t).isSome = true) :=
  ⟨observe_isSome_iff s t v, getLatestStats_isSome_iff s t,
    fun ht =>
      ⟨(observe_isSome_iff s t v).2 (Int.tmod_nonneg _ ht),
       (getLatestStats_isSome_iff s t).2
         (by have := Int.tmod_nonneg ((bucketsCount : Nat) : Int) ht; omega)⟩⟩

/-- C9 witness at second 3. -/
theorem c9_witness :
    ((latencyStats.init.observe 3 5).isSome = true ↔
      0 ≤ (3 : Int).tmod (bucketsCount : Int)) ∧
    ((latencyStats.init.getLatestStats 3).isSome = true ↔
      -7 < (3 : Int).tmod (bucketsCount : Int)) ∧
    (0 ≤ (3 : Int) →
      (latencyStats.init.observe 3 5).isSome = true ∧
      (latencyStats.init.getLatestStats 3).isSome = true) :=
  c9_negative_index_panic latencyStats.init 3 5

/-! ### Concurrent semantics of `bucket.observe`

The body of `bucket.observe` performs four atomic actions on the shared
bucket: the `Load` of `ts` (with the thread-local comparison against the
argument), the `CAS`, the `Store(0)` executed only by the CAS winner, and
the fetch-and-`Add` of the packed delta.  A concurrent execution of `M`
goroutines, each performing a single `observe(t, v)`, is an arbitrary
interleaving of those actions, picked by a schedule of thread indices. -/

inductive ObsPc where
  | start
  | casStep
  | storeStep
  | addStep
  | done
deriving DecidableEq, Repr

structure ObsThread where
  pc : ObsPc
  oldTs : Int
deriving DecidableEq, Repr

/-- The shared bucket (`ts`, `countAndTotal`) plus each thread's control
state. -/
structure ObsState (M : Nat) where
  ts : Int
  countAndTotal : Nat
  threads : Fin M → ObsThread

/-- One atomic action of thread `i`; every thread runs `observe(t, v)`. -/
def obsStep (t : Int) (v : Nat) {M : Nat} (g : ObsState M) (i : Fin M) : ObsState M :=
  let th := g.threads i
  match th.pc with
  | ObsPc.start =>
      if g.ts ≠ t then
        { g with threads := Function.update g.threads i ⟨ObsPc.casStep, g.ts⟩ }
      else
        { g with threads := Function.update g.threads i ⟨ObsPc.addStep, g.ts⟩ }
  | ObsPc.casStep =>
      if g.ts = th.oldTs then
        { g with ts := t,
                 threads := Function.update g.threads i ⟨ObsPc.storeStep, th.oldTs⟩ }
      else
        { g with threads := Function.update g.threads i ⟨ObsPc.addStep, th.oldTs⟩ }
  | ObsPc.storeStep =>
      { g with countAndTotal := 0,
               threads := Function.update g.threads i ⟨ObsPc.addStep, th.oldTs⟩ }
  | ObsPc.addStep =>
      { g with countAndTotal := (g.countAndTotal + composedValue v) % 2 ^ 64,
               threads := Function.update g.threads i ⟨ObsPc.done, th.oldTs⟩ }
  | ObsPc.done => g

/-- Initial state: the Go zero bucket, all `M` threads at the entry. -/
def obsInit (M : Nat) : ObsState M :=
  ⟨0, 0, fun _ => ⟨ObsPc.start, 0⟩⟩

/-- Run a schedule. -/
def obsRun (t : Int) (v : Nat) {M : Nat} (g : ObsState M) (sched : List (Fin M)) :
    ObsState M :=
  sched.foldl (obsStep t v) g

lemma obsStep_start_ne {M : Nat} {g : ObsState M} {i : Fin M} (t : Int) (v : Nat)
    (hpc : (g.threads i).pc = ObsPc.start) (hts : g.ts ≠ t) :
    obsStep t v g i =
      { g with threads := Function.update g.threads i ⟨ObsPc.casStep, g.ts⟩ } := by
  simp [obsStep, hpc, hts]

lemma obsStep_start_eq {M : Nat} {g : ObsState M} {i : Fin M} (t : Int) (v : Nat)
    (hpc : (g.threads i).pc = ObsPc.start) (hts : g.ts = t) :
    obsStep t v g i =
      { g with threads := Function.update g.threads i ⟨ObsPc.addStep, g.ts⟩ } := by
  simp [obsStep, hpc, hts]

lemma obsStep_cas_succ {M : Nat} {g : ObsState M} {i : Fin M} (t : Int) (v : Nat)
    (hpc : (g.threads i).pc = ObsPc.casStep) (hts : g.ts = (g.threads i).oldTs) :
    obsStep t v g i =
      { g with ts := t,
               threads :=
                 Function.update g.threads i ⟨ObsPc.storeStep, (g.threads i).oldTs⟩ } := by
  simp [obsStep, hpc, hts]

lemma obsStep_cas_fail {M : Nat} {g : ObsState M} {i : Fin M} (t : Int) (v : Nat)
    (hpc : (g.threads i).pc = ObsPc.casStep) (hts : g.ts ≠ (g.threads i).oldTs) :
    obsStep t v g i =
      { g with threads :=
          Function.update g.threads i ⟨ObsPc.addStep, (g.threads i).oldTs⟩ } := by
  simp [obsStep, hpc, hts]

lemma obsStep_store {M : Nat} {g : ObsState M} {i : Fin M} (t : Int) (v : Nat)
    (hpc : (g.threads i).pc = ObsPc.storeStep) :
    obsStep t v g i =
      { g with countAndTotal := 0,
               threads :=
                 Function.update g.threads i ⟨ObsPc.addStep, (g.threads i).oldTs⟩ } := by
  simp [obsStep, hpc]

lemma obsStep_add {M : Nat} {g : ObsState M} {i : Fin M} (t : Int) (v : Nat)
    (hpc : (g.threads i).pc = ObsPc.addStep) :
    obsStep t v g i =
      { g with countAndTotal := (g.countAndTotal + composedValue v) % 2 ^ 64,
               threads :=
                 Function.update g.threads i ⟨ObsPc.done, (g.threads i).oldTs⟩ } := by
  simp [obsStep, hpc]

lemma obsStep_done {M : Nat} {g : ObsState M} {i : Fin M} (t : Int) (v : Nat)
    (hpc : (g.threads i).pc = ObsPc.done) :
    obsStep t v g i = g := by
  simp [obsStep, hpc]

/-- The global invariant of the concurrent `observe` machine started from a
fresh bucket: before any CAS the packed word is untouched (phase A); at most
one store is pending (phase B); after it the word holds one packed delta per
add that survived the last store, and the storer's own add is among them or
still to come (phase C). -/
def ObsInv (M : Nat) (t : Int) (v : Nat) (g : ObsState M) : Prop :=
  (g.ts = 0 ∧ t ≠ 0 ∧ g.countAndTotal = 0 ∧
    (∀ i, (g.threads i).pc = ObsPc.start ∨
      ((g.threads i).pc = ObsPc.casStep ∧ (g.threads i).oldTs = 0))) ∨
  (g.ts = t ∧ t ≠ 0 ∧
    (∃ w, (g.threads w).pc = ObsPc.storeStep ∧
      ∀ j, j ≠ w → (g.threads j).pc ≠ ObsPc.storeStep) ∧
    (∀ i, (g.threads i).pc = ObsPc.casStep → (g.threads i).oldTs = 0)) ∨
  (g.ts = t ∧
    (∀ i, (g.threads i).pc ≠ ObsPc.storeStep) ∧
    (∀ i, (g.threads i).pc = ObsPc.casStep → (g.threads i).oldTs = 0 ∧ t ≠ 0) ∧
    (∃ S : Finset (Fin M),
      (∀ i ∈ S, (g.threads i).pc = ObsPc.done) ∧
      g.countAndTotal = S.card * composedValue v % 2 ^ 64 ∧
      (t ≠ 0 → ∃ w, (g.threads w).pc = ObsPc.addStep ∨
        ((g.threads w).pc = ObsPc.done ∧ w ∈ S)) ∧
      (t = 0 → ∀ i, (g.threads i).pc = ObsPc.done → i ∈ S)))

lemma obsInv_init (M : Nat) (t : Int) (v : Nat) : ObsInv M t v (obsInit M) := by
  by_cases ht : t = 0
  · subst ht
    right; right
    refine ⟨rfl, ?_, ?_, ∅, ?_, ?_, ?_, ?_⟩
    · intro i
      simp [obsInit]
    · intro i h
      simp [obsInit] at h
    · intro i h
      simp at h
    · simp [obsInit]
    · intro h0
      exact absurd rfl h0
    · intro _ i hdone
      simp [obsInit] at hdone
  · exact Or.inl ⟨rfl, ht, rfl, fun i => Or.inl rfl⟩

lemma obsInv_step {M : Nat} (t : Int) (v : Nat) (g : ObsState M) (i : Fin M)
    (h : ObsInv M t v g) : ObsInv M t v (obsStep t v g i) := by
  unfold ObsInv at h ⊢
  cases hpc : (g.threads i).pc with
  | start =>
      rcases h with ⟨hts, htne, hcat, hth⟩ | ⟨hts, htne, ⟨w, hw, hwu⟩, hcas⟩ |
        ⟨hts, hnost, hcas, S, hSd, hSc, hSw, hS0⟩
      · rw [obsStep_start_ne t v hpc (by rw [hts]; omega)]
        dsimp only
        left
        refine ⟨hts, htne, hcat, fun j => ?_⟩
        by_cases hji : j = i
        · subst hji
          rw [Function.update_same]
          exact Or.inr ⟨rfl, hts⟩
        · rw [Function.update_noteq hji]
          exact hth j
      · rw [obsStep_start_eq t v hpc hts]
        dsimp only
        have hwi : w ≠ i := by
          intro he
          rw [he, hpc] at hw
          simp at hw
        right; left
        refine ⟨hts, htne, ⟨w, ?_, fun j hj => ?_⟩, fun j hj => ?_⟩
        · rw [Function.update_noteq hwi]
          exact hw
        · by_cases hji : j = i
          · subst hji
            rw [Function.update_same]
            simp
          · rw [Function.update_noteq hji]
            exact hwu j hj
        · by_cases hji : j = i
          · subst hji
            rw [Function.update_same] at hj
            simp at hj
          · rw [Function.update_noteq hji] at hj ⊢
            exact hcas j hj
      · rw [obsStep_start_eq t v hpc hts]
        dsimp only
        right; right
        refine ⟨hts, fun j => ?_, fun j hj => ?_, S, fun j hjS => ?_, hSc,
          fun htne' => ?_, fun ht0 j hjd => ?_⟩
        · by_cases hji : j = i
          · subst hji
            rw [Function.update_same]
            simp
          · rw [Function.update_noteq hji]
            exact hnost j
        · by_cases hji : j = i
          · subst hji
            rw [Function.update_same] at hj
            simp at hj
          · rw [Function.update_noteq hji] at hj ⊢
            exact hcas j hj
        · have hd := hSd j hjS
          have hji : j ≠ i := by
            intro he
            rw [he, hpc] at hd
            simp at hd
          rw [Function.update_noteq hji]
          exact hd
        · obtain ⟨w, hw⟩ := hSw htne'
          have hwi : w ≠ i := by
            intro he
            rcases hw with hwa | ⟨hwd, _⟩
            · rw [he, hpc] at hwa
              simp at hwa
            · rw [he, hpc] at hwd
              simp at hwd
          refine ⟨w, ?_⟩
          rw [Function.update_noteq hwi]
          exact hw
        · by_cases hji : j = i
          · subst hji
            rw [Function.update_same] at hjd
            simp at hjd
          · rw [Function.update_noteq hji] at hjd
            exact hS0 ht0 j hjd
  | casStep =>
      rcases h with ⟨hts, htne, hcat, hth⟩ | ⟨hts, htne, ⟨w, hw, hwu⟩, hcas⟩ |
        ⟨hts, hnost, hcas, S, hSd, hSc, hSw, hS0⟩
      · have hold : (g.threads i).oldTs = 0 := by
          rcases hth i with h1 | ⟨_, h2⟩
          · rw [hpc] at h1
            simp at h1
          · exact h2
        rw [obsStep_cas_succ t v hpc (by rw [hts, hold])]
        dsimp only
        right; left
        refine ⟨rfl, htne, ⟨i, ?_, fun j hj => ?_⟩, fun j hj => ?_⟩
        · rw [Function.update_same]
        · rw [Function.update_noteq hj]
          rcases hth j with h1 | ⟨h1, _⟩ <;> rw [h1] <;> simp
        · by_cases hji : j = i
          · subst hji
            rw [Function.update_same] at hj
            simp at hj
          · rw [Function.update_noteq hji] at hj ⊢
            rcases hth j with h1 | ⟨_, h2⟩
            · rw [h1] at hj
              simp at hj
            · exact h2
      · rw [obsStep_cas_fail t v hpc (by rw [hts, hcas i hpc]; exact htne)]
        dsimp only
        have hwi : w ≠ i := by
          intro he
          rw [he, hpc] at hw
          simp at hw
        right; left
        refine ⟨hts, htne, ⟨w, ?_, fun j hj => ?_⟩, fun j hj => ?_⟩
        · rw [Function.update_noteq hwi]
          exact hw
        · by_cases hji : j = i
          · subst hji
            rw [Function.update_same]
            simp
          · rw [Function.update_noteq hji]
            exact hwu j hj
        · by_cases hji : j = i
          · subst hji
            rw [Function.update_same] at hj
            simp at hj
          · rw [Function.update_noteq hji] at hj ⊢
            exact hcas j hj
      · obtain ⟨hold, htne'⟩ := hcas i hpc
        rw [obsStep_cas_fail t v hpc (by rw [hts, hold]; exact htne')]
        dsimp only
        right; right
        refine ⟨hts, fun j => ?_, fun j hj => ?_, S, fun j hjS => ?_, hSc,
          fun htne2 => ?_, fun ht0 j hjd => ?_⟩
        · by_cases hji : j = i
          · subst hji
            rw [Function.update_same]
            simp
          · rw [Function.update_noteq hji]
            exact hnost j
        · by_cases hji : j = i
          · subst hji
            rw [Function.update_same] at hj
            simp at hj
          · rw [Function.update_noteq hji] at hj ⊢
            exact hcas j hj
        · have hd := hSd j hjS
          have hji : j ≠ i := by
            intro he
            rw [he, hpc] at hd
            simp at hd
          rw [Function.update_noteq hji]
          exact hd
        · obtain ⟨w, hw⟩ := hSw htne2
          have hwi : w ≠ i := by
            intro he
            rcases hw with hwa | ⟨hwd, _⟩
            · rw [he, hpc] at hwa
              simp at hwa
            · rw [he, hpc] at hwd
              simp at hwd
          refine ⟨w, ?_⟩
          rw [Function.update_noteq hwi]
          exact hw
        · by_cases hji : j = i
          · subst hji
            rw [Function.update_same] at hjd
            simp at hjd
          · rw [Function.update_noteq hji] at hjd
            exact hS0 ht0 j hjd
  | storeStep =>
      rcases h with ⟨hts, htne, hcat, hth⟩ | ⟨hts, htne, ⟨w, hw, hwu⟩, hcas⟩ |
        ⟨hts, hnost, hcas, S, hSd, hSc, hSw, hS0⟩
      · rcases hth i with h1 | ⟨h1, _⟩ <;> rw [hpc] at h1 <;> simp at h1
      · have hiw : i = w := by
          by_contra hne
          exact hwu i hne hpc
        subst hiw
        rw [obsStep_store t v hpc]
        dsimp only
        right; right
        refine ⟨hts, fun j => ?_, fun j hj => ?_, ∅, by simp, by simp,
          fun _ => ⟨i, Or.inl ?_⟩, fun ht0 => absurd ht0 htne⟩
        · by_cases hji : j = i
          · subst hji
            rw [Function.update_same]
            simp
          · rw [Function.update_noteq hji]
            exact hwu j hji
        · by_cases hji : j = i
          · subst hji
            rw [Function.update_same] at hj
            simp at hj
          · rw [Function.update_noteq hji] at hj ⊢
            exact ⟨hcas j hj, htne⟩
        · rw [Function.update_same]
      · exact absurd hpc (hnost i)
  | addStep =>
      rcases h with ⟨hts, htne, hcat, hth⟩ | ⟨hts, htne, ⟨w, hw, hwu⟩, hcas⟩ |
        ⟨hts, hnost, hcas, S, hSd, hSc, hSw, hS0⟩
      · rcases hth i with h1 | ⟨h1, _⟩ <;> rw [hpc] at h1 <;> simp at h1
      · rw [obsStep_add t v hpc]
        dsimp only
        have hwi : w ≠ i := by
          intro he
          rw [he, hpc] at hw
          simp at hw
        right; left
        refine ⟨hts, htne, ⟨w, ?_, fun j hj => ?_⟩, fun j hj => ?_⟩
        · rw [Function.update_noteq hwi]
          exact hw
        · by_cases hji : j = i
          · subst hji
            rw [Function.update_same]
            simp
          · rw [Function.update_noteq hji]
            exact hwu j hj
        · by_cases hji : j = i
          · subst hji
            rw [Function.update_same] at hj
            simp at hj
          · rw [Function.update_noteq hji] at hj ⊢
            exact hcas j hj
      · rw [obsStep_add t v hpc]
        dsimp only
        have hiS : i ∉ S := by
          intro hm
          have hd := hSd i hm
          rw [hpc] at hd
          simp at hd
        right; right
        refine ⟨hts, fun j => ?_, fun j hj => ?_, insert i S, fun j hjm => ?_, ?_,
          fun htne' => ?_, fun ht0 j hjd => ?_⟩
        · by_cases hji : j = i
          · subst hji
            rw [Function.update_same]
            simp
          · rw [Function.update_noteq hji]
            exact hnost j
        · by_cases hji : j = i
          · subst hji
            rw [Function.update_same] at hj
            simp at hj
          · rw [Function.update_noteq hji] at hj ⊢
            exact hcas j hj
        · rcases Finset.mem_insert.mp hjm with hji | hjS
          · subst hji
            rw [Function.update_same]
          · have hji : j ≠ i := fun he => hiS (he ▸ hjS)
            rw [Function.update_noteq hji]
            exact hSd j hjS
        · show (g.countAndTotal + composedValue v) % 2 ^ 64 =
            (insert i S).card * composedValue v % 2 ^ 64
          rw [Finset.card_insert_of_not_mem hiS, hSc, Nat.mod_add_mod]
          congr 1
          ring
        · obtain ⟨w, hw⟩ := hSw htne'
          by_cases hwi : w = i
          · exact ⟨i, Or.inr ⟨by rw [Function.update_same], Finset.mem_insert_self i S⟩⟩
          · rcases hw with hwa | ⟨hwd, hwS⟩
            · exact ⟨w, Or.inl (by rw [Function.update_noteq hwi]; exact hwa)⟩
            · exact ⟨w, Or.inr ⟨by rw [Function.update_noteq hwi]; exact hwd,
                Finset.mem_insert_of_mem hwS⟩⟩
        · by_cases hji : j = i
          · subst hji
            exact Finset.mem_insert_self _ S
          · rw [Function.update_noteq hji] at hjd
            exact Finset.mem_insert_of_mem (hS0 ht0 j hjd)
  | done =>
      rw [obsStep_done t v hpc]
      exact h

lemma obsInv_run {M : Nat} (t : Int) (v : Nat) (sched : List (Fin M)) :
    ∀ g : ObsState M, ObsInv M t v g → ObsInv M t v (obsRun t v g sched) := by
  induction sched with
  | nil => exact fun g hg => hg
  | cons i sched ih =>
      intro g hg
      show ObsInv M t v (obsRun t v (obsStep t v g i) sched)
      exact ih _ (obsInv_step t v g i hg)

/-- C10 counterexample: with M = 8 goroutines in the same second on a fresh
bucket, even the fully sequential interleaving overflows the 3-bit count
field: all threads finish, yet the loaded Count is 0 — not strictly
positive, refuting the claim for M ≥ 8. -/
theorem c10_counterexample :
    (∀ i : Fin 8, ((obsRun 1 0 (obsInit 8)
        [0, 0, 0, 0, 1, 1, 2, 2, 3, 3, 4, 4, 5, 5, 6, 6, 7, 7]).threads i).pc =
      ObsPc.done) ∧
    (obsRun 1 0 (obsInit 8)
        [0, 0, 0, 0, 1, 1, 2, 2, 3, 3, 4, 4, 5, 5, 6, 6, 7, 7]).countAndTotal &&&
      counterMusk = 0 := by
  decide

/-- C10 (amended): for `1 ≤ M ≤ 7` goroutines each performing one
`observe(t, v)` on a fresh bucket, every completed interleaving leaves a
loaded Count with `1 ≤ Count ≤ M`: lost updates can lower it below M, but
it never exceeds M and is strictly positive. -/
theorem c10_concurrent_count_bounds (M : Nat) (t : Int) (v : Nat)
    (sched : List (Fin M)) (hM1 : 1 ≤ M) (hM7 : M ≤ 7)
    (hdone : ∀ i : Fin M,
      ((obsRun t v (obsInit M) sched).threads i).pc = ObsPc.done) :
    1 ≤ (obsRun t v (obsInit M) sched).countAndTotal &&& counterMusk ∧
    (obsRun t v (obsInit M) sched).countAndTotal &&& counterMusk ≤ M := by
  have hinv := obsInv_run t v sched (obsInit M) (obsInv_init M t v)
  unfold ObsInv at hinv
  set gf := obsRun t v (obsInit M) sched with hgf
  have hand : gf.countAndTotal &&& counterMusk = gf.countAndTotal % 8 := by
    have h8 := Nat.and_pow_two_sub_one_eq_mod gf.countAndTotal 3
    norm_num at h8
    rw [show counterMusk = 7 from rfl, h8]
  rcases hinv with ⟨hts, htne, hcat, hth⟩ | ⟨hts, htne, ⟨w, hw, hwu⟩, hcas⟩ |
    ⟨hts, hnost, hcas, S, hSd, hSc, hSw, hS0⟩
  · have h0 := hdone ⟨0, by omega⟩
    rcases hth ⟨0, by omega⟩ with h1 | ⟨h1, _⟩ <;> rw [h0] at h1 <;> simp at h1
  · have h0 := hdone w
    rw [h0] at hw
    simp at hw
  · have hkM : S.card ≤ M := le_trans (Finset.card_le_univ S) (by simp)
    have hk1 : 1 ≤ S.card := by
      by_cases ht0 : t = 0
      · have h0 := hS0 ht0 ⟨0, by omega⟩ (hdone ⟨0, by omega⟩)
        exact Finset.card_pos.mpr ⟨_, h0⟩
      · obtain ⟨w, hw⟩ := hSw ht0
        rcases hw with hwa | ⟨_, hwS⟩
        · rw [hdone w] at hwa
          simp at hwa
        · exact Finset.card_pos.mpr ⟨w, hwS⟩
    have hcount : gf.countAndTotal % 8 = S.card := by
      rw [hSc, Nat.mod_mod_of_dvd _ (by norm_num : (8 : Nat) ∣ 2 ^ 64),
        Nat.mul_mod, composedValue_eq,
        show (8 * (v % 2 ^ 61) + 1) % 8 = 1 by omega]
      omega
    rw [hand, hcount]
    exact ⟨hk1, hkM⟩

/-- C10 witness: M = 2, sequential schedule, final Count between 1 and 2. -/
theorem c10_witness :
    1 ≤ (2 : Nat) ∧ (2 : Nat) ≤ 7 ∧
    (∀ i : Fin 2,
      ((obsRun 1 0 (obsInit 2) [0, 0, 0, 0, 1, 1]).threads i).pc = ObsPc.done) ∧
    (1 ≤ (obsRun 1 0 (obsInit 2) [0, 0, 0, 0, 1, 1]).countAndTotal &&& counterMusk ∧
      (obsRun 1 0 (obsInit 2) [0, 0, 0, 0, 1, 1]).countAndTotal &&& counterMusk ≤ 2) :=
  ⟨by decide, by decide, by decide,
    c10_concurrent_count_bounds 2 1 0 [0, 0, 0, 0, 1, 1] (by decide) (by decide)
      (by decide)⟩

/-- C6 counterexample: at the pre-epoch second -3, the slot index for `t`
(Go's truncating `%` gives -3) differs from the slot index for `t + 10`
(which is 7), and `observe` at `t` panics — so the claim fails for every
second `t`. -/
theorem c6_counterexample :
    (-3 : Int).tmod (bucketsCount : Int) ≠ ((-3 : Int) + 10).tmod (bucketsCount : Int) ∧
    (latencyStats.init.observe (-3) 1).isSome = false := by decide
